import Mathlib

/-!
Verification of the structural core of the `pptrees` parallel-prefix tree
library (files `ExpressionTree.py`, `ExpressionNode.py`, `ExpressionGraph.py`,
`prefix_graph.py`, `util.py`).

Shallow embedding conventions:
* Python arbitrary-precision integers are `Nat` (or `Int` where the source
  value can be negative); Python `//` is `Nat` division.
* Tree shapes are the inductive `BTree`; the auxiliary `leafs` bitmask field
  of `ExpressionNode` is carried explicitly by `ETree`.
* Fallible operations return `Option`/`Except`; `none`/`.error` models the
  Python exception escaping before the operation commits its mutations.
* Loops over `range(..)` are structural recursions over an explicit
  iteration count, so that every definition evaluates by kernel reduction.
-/

namespace Pptrees

/-- Embedding of `util.catalan`: `catalan(0) = 1`,
`catalan(n) = catalan(n-1) * (4*n-2) // (n+1)` (the Python `//` is exact
here, but the embedding uses `Nat` floor division just as the source does). -/
def catalan : Nat → Nat
  | 0 => 1
  | n + 1 => catalan n * (4 * (n + 1) - 2) / (n + 2)

/-- Embedding of the comparison `rank >= catalan_mirror_point(width)` used by
`ExpressionTree.unrank`.  `util.catalan_mirror_point` returns
`catalan(n) >> 1` for even `n` and the Python float
`(catalan(n) >> 1) + catalan(n//2)**2 / 2` for odd `n`; the float comparison
is embedded exactly over the integers by multiplying both sides by 2. -/
def mirrorTest (rank width : Nat) : Bool :=
  if width % 2 = 1 then
    decide (2 * rank ≥ 2 * (catalan width / 2) + catalan (width / 2) ^ 2)
  else
    decide (rank ≥ catalan width / 2)

/-- Embedding of the splitting loop of `ExpressionTree.unrank`
(`for i in range((width+1)//2): ...`).  The argument `fuel` is the number of
loop iterations that remain after the current one; the loop body computes
`big = catalan(i) * catalan(width-i-1)` and either breaks (when
`rank - big < 0`) or subtracts.  Returns the final `(i1, rank)` pair exactly
as the Python loop leaves those variables. -/
def splitGo (width : Nat) : Nat → Nat → Nat → Nat × Nat
  | i, rank, 0 =>
    let big := catalan i * catalan (width - i - 1)
    (i, if rank < big then rank else rank - big)
  | i, rank, fuel + 1 =>
    let big := catalan i * catalan (width - i - 1)
    if rank < big then (i, rank) else splitGo width (i + 1) (rank - big) fuel

/-- Runs the splitting loop of `ExpressionTree.unrank` from `i = 0` over its
full range `range((width+1)//2)`. -/
def split (rank width : Nat) : Nat × Nat :=
  splitGo width 0 rank ((width + 1) / 2 - 1)

/-- Shape of a binary expression tree: `leaf` is a pre-processing (leaf)
node, `node` an internal node with its ordered children (child 0 first). -/
inductive BTree where
  | leaf : BTree
  | node : BTree → BTree → BTree
deriving DecidableEq, Repr

/-- Embedding of `ExpressionTree.unrank`, restricted to the tree shape it
builds (module tags, leaf labels and graph bookkeeping do not influence the
shape).  The `width` parameter is the source's `width` argument (number of
internal nodes of the subtree); `fuel` strictly exceeds `width` at every
call site, so the fuel case is never taken on the calls the theorems use.
The recursive calls mirror lines 824-830 of `ExpressionTree.py`: under
`mirror`, child 0 receives `(rank // ci1, i2)` and child 1 `(rank % ci1, i1)`;
otherwise child 0 receives `(rank % ci1, i1)` and child 1 `(rank // ci1, i2)`. -/
def unrankGo : Nat → Nat → Nat → Bool → BTree
  | 0, _, _, _ => .leaf
  | fuel + 1, rank, width, mirror =>
    let mt := mirrorTest rank width
    let mirror' := if mt then !mirror else mirror
    let rank' := if mt then catalan width - 1 - rank else rank
    if width = 0 then .leaf
    else
      let s := split rank' width
      let i1 := s.1
      let r := s.2
      let i2 := width - i1 - 1
      let ci1 := catalan i1
      if mirror' then
        .node (unrankGo fuel (r / ci1) i2 mirror') (unrankGo fuel (r % ci1) i1 mirror')
      else
        .node (unrankGo fuel (r % ci1) i1 mirror') (unrankGo fuel (r / ci1) i2 mirror')

/-- Shape of the tree built by the `ExpressionTree` constructor for leaf
count `w` and Catalan start point `r`: the constructor calls
`self.unrank(None, 0, start_point, self.width - 1, leafs, lspine=True)`,
whose top node is `self.root`. -/
def treeShape (w r : Nat) : BTree :=
  unrankGo w r (w - 1) false

/-- Number of internal nodes of a shape (this equals the `width` argument
`unrank` was called with, and equals `popcount(node.leafs) - 1` in the
source's `rank`). -/
def numInternal : BTree → Nat
  | .leaf => 0
  | .node l r => numInternal l + numInternal r + 1

/-- Number of leaves of a shape. -/
def numLeaves : BTree → Nat
  | .leaf => 1
  | .node l r => numLeaves l + numLeaves r

/-- Embedding of the accumulation loop of `ExpressionTree.rank`
(`for i in range(lwidth): rank += catalan(i1) * catalan(i2)` with
`i1, i2 = i, width - i - 1`). -/
def sumBig (lw width : Nat) : Nat :=
  match lw with
  | 0 => 0
  | n + 1 => sumBig n width + catalan n * catalan (width - n - 1)

/-- Embedding of `ExpressionTree.rank` on shapes.  `lwidth`/`rwidth` are the
children's internal-node counts (`popcount(leafs) - 1` in the source);
`new_mirror = lwidth > rwidth` swaps the children; the final line applies the
complement `catalan(width) - rank - 1` exactly when `new_mirror != mirror`. -/
def rankB : BTree → Bool → Nat
  | .leaf, _ => 0
  | .node l r, mirror =>
    let lw := numInternal l
    let rw := numInternal r
    let width := lw + rw + 1
    if rw < lw then
      -- new_mirror is true: children and widths swap, the light child is r
      let rank0 := rankB r true + rankB l true * catalan rw + sumBig rw width
      if mirror then rank0 else catalan width - rank0 - 1
    else
      let rank0 := rankB l false + rankB r false * catalan lw + sumBig lw width
      if mirror then catalan width - rank0 - 1 else rank0

/-- Rank of a freshly constructed tree of leaf count `w` and start point `r`,
as computed by `self.rank(self.root)`: the source special-cases the root with
a single child (`w = 1`) to rank `0`; otherwise it ranks the root shape with
`mirror = False`. -/
def treeRank (w r : Nat) : Nat :=
  if w = 1 then 0 else rankB (treeShape w r) false

/-- Path from the root of a shape to a node: `false` selects child 0 (the
left child), `true` selects child 1 (the right child). -/
abbrev Path := List Bool

/-- Embedding of `ExpressionTree.left_rotate` on shapes, with the pivot node
addressed by a path.  The source raises before any mutation when the pivot
has no parent (`node.parent is None`: empty path), when the pivot lacks a
full family (`len(node.children) != self.radix`: the pivot is a leaf), or
when the pivot is not its parent's right child (`node.parent[1] != node`);
those cases return `none`.  Otherwise the pivot takes its parent's place,
the parent becomes child 0 of the pivot keeping its old left child and
gaining the pivot's old left child, exactly as the edge rewiring of lines
579-587 of `ExpressionTree.py` (the `thru_lspine` morphs replace module
tags only and do not alter the shape). -/
def leftRotateAt : BTree → Path → Option BTree
  | _, [] => none
  | .leaf, _ :: _ => none
  | .node l r, [true] =>
    match r with
    | .leaf => none
    | .node rl rr => some (.node (.node l rl) rr)
  | .node _ _, [false] => none
  | .node l r, true :: q :: p => (leftRotateAt r (q :: p)).map (fun r' => .node l r')
  | .node l r, false :: q :: p => (leftRotateAt l (q :: p)).map (fun l' => .node l' r)

/-- Embedding of `ExpressionTree.right_rotate` on shapes (mirror image of
`leftRotateAt`; the source requires the pivot to be its parent's left child,
`node.parent[0] != node` raising otherwise). -/
def rightRotateAt : BTree → Path → Option BTree
  | _, [] => none
  | .leaf, _ :: _ => none
  | .node l r, [false] =>
    match l with
    | .leaf => none
    | .node ll lr => some (.node ll (.node lr r))
  | .node _ _, [true] => none
  | .node l r, true :: q :: p => (rightRotateAt r (q :: p)).map (fun r' => .node l r')
  | .node l r, false :: q :: p => (rightRotateAt l (q :: p)).map (fun l' => .node l' r)

/-- Expression tree carrying the `leafs` bitmask field of every
`ExpressionNode`: a leaf stores the mask set by
`leaf._recalculate_leafs(leafs=2**a)` in the constructor, an internal node
stores its `leafs` attribute. -/
inductive ETree where
  | leaf (mask : Nat)
  | node (leafs : Nat) (l : ETree) (r : ETree)
deriving DecidableEq, Repr

/-- Stored `leafs` field of the top node of an `ETree`. -/
def leafsOf : ETree → Nat
  | .leaf m => m
  | .node s _ _ => s

/-- Embedding of the local computation of
`ExpressionNode._recalculate_leafs(self, leafs=0)`:
`self.leafs = leafs; for c in self.children: self.leafs |= c.leafs`.
The source then recurses into `self.parent`; that upward propagation is
captured below by recomputing this value at every ancestor of a change. -/
def recalcLeafs (leafsArg : Nat) (children : List Nat) : Nat :=
  children.foldl (fun a b => a ||| b) leafsArg

/-- Masks of the tree built by the constructor: the shape is produced by
`unrank`, which consumes `leafs.pop()` (the last element of the leaf pool)
at each leaf and always recurses into child 0 before child 1, so the pool is
modeled reversed and consumed from the head; every internal node's stored
field is the `_recalculate_leafs` value of its children (the state the
upward-propagating recalculation leaves behind once construction finishes). -/
def buildMasks : BTree → List Nat → ETree × List Nat
  | .leaf, pool => (.leaf (pool.headD 0), pool.tail)
  | .node l r, pool =>
    let pl := buildMasks l pool
    let pr := buildMasks r pl.2
    (.node (recalcLeafs 0 [leafsOf pl.1, leafsOf pr.1]) pl.1 pr.1, pr.2)

/-- Leaf pool of the constructor: leaf `a` gets mask `2**a` for
`a = 0 .. width-1` (`leaf._recalculate_leafs(leafs=2**a)`), and the pool is
consumed from its tail, so it is stored reversed here. -/
def leafPool (w : Nat) : List Nat :=
  ((List.range w).map (fun a => 2 ^ a)).reverse

/-- Tree with masks produced by constructing an `ExpressionTree` of leaf
count `w` at Catalan start point `r`. -/
def constructedTree (w r : Nat) : ETree :=
  (buildMasks (treeShape w r) (leafPool w)).1

/-- Decidable form of the leafs invariant: every node with children stores
exactly the `_recalculate_leafs` value of its children's stored masks
(`leaf_mask(node) == OR(leaf_mask(child) for child in children)`). -/
def leafsInvB : ETree → Bool
  | .leaf _ => true
  | .node s l r =>
    (s == recalcLeafs 0 [leafsOf l, leafsOf r]) && leafsInvB l && leafsInvB r

/-- Model of a structural change below a path followed by the
`_recalculate_leafs` upward propagation: the subtree at `p` is replaced and
every ancestor on the path has its stored mask recomputed from its children,
exactly the state `add_child`/`remove_child` leave after walking
`self.parent._recalculate_leafs()` up to the root. -/
def eReplaceAt : ETree → Path → ETree → Option ETree
  | _, [], sub => some sub
  | .leaf _, _ :: _, _ => none
  | .node _ l r, false :: p, sub =>
    (eReplaceAt l p sub).map
      (fun l' => .node (recalcLeafs 0 [leafsOf l', leafsOf r]) l' r)
  | .node _ l r, true :: p, sub =>
    (eReplaceAt r p sub).map
      (fun r' => .node (recalcLeafs 0 [leafsOf l, leafsOf r']) l r')

/-- Bitwise OR of a list of masks (used to state what the recalculation
computes over a whole pool of leaves). -/
def orAll : List Nat → Nat
  | [] => 0
  | x :: xs => x ||| orAll xs

/-- Net identifier of `ExpressionGraph`: either the procedurally generated
name built by `add_edge` (the Python string `"$n{next_net}_{name}"`, kept
structured here as the counter value and the graph name so that distinct
counter values give distinct nets, as distinct strings do in the source) or
an externally fixed boundary name. -/
inductive Net where
  | auto (k : Nat) (gname : String)
  | fixed (s : String)
deriving DecidableEq, Repr

/-- Pin store of one node: the `in_nets`/`out_nets` dictionary mapping a
port name to its per-bit list of optional net ids. -/
abbrev NetMap := List (String × List (Option Net))

/-- Reads `nets[pn][pi]`. -/
def getNet (m : NetMap) (pn : String) (pi : Nat) : Option Net :=
  match m.find? (fun e => e.1 == pn) with
  | none => none
  | some e => e.2.getD pi none

/-- Membership test `pn in nets`. -/
def hasPort (m : NetMap) (pn : String) : Bool :=
  (m.find? (fun e => e.1 == pn)).isSome

/-- Writes `nets[pn][pi] = v`. -/
def setNet (m : NetMap) (pn : String) (pi : Nat) (v : Net) : NetMap :=
  m.map (fun e => if e.1 == pn then (e.1, e.2.set pi (some v)) else e)

/-- Data of the single directed `DiGraph` edge record between one ordered
node pair: the matched pin pairs and their nets, as stored in the `ins`,
`outs` and `edge_nets` attributes of `ExpressionGraph.add_edge` (the
GraphViz styling and the weight attributes drawn from the external module
catalog are not modeled). -/
structure EdgeRec where
  ins : List (String × Nat)
  outs : List (String × Nat)
  edgeNets : List Net
deriving DecidableEq, Repr

/-- State relevant to one ordered (parent, child) node pair inside an
`ExpressionGraph`: the graph's net counter and name, the parent's input
pins, the child's output pins, whether `child.parent is parent` already
holds, and the edge record between the pair (`none` when
`has_edge(parent, child)` is false). -/
structure PairSt where
  nextNet : Nat
  gname : String
  parentIn : NetMap
  childOut : NetMap
  childLinked : Bool
  edge : Option EdgeRec
deriving DecidableEq, Repr

/-- Embedding of `ExpressionNode.add_child(child, pin1, pin2, net_name)`:
raises (`none`) when either pin name is missing; otherwise reuses the
parent's assigned net first, then the child's, falling back to `net_name`;
assigns the chosen net to both pins, and links the child if it is not
already connected (the `children` list insertion and the
`_recalculate_leafs` walk are the leaf-mask bookkeeping handled by the
`ETree` model above). -/
def addChild (st : PairSt) (pin1 pin2 : String × Nat) (netName : Net) :
    Option (Net × PairSt) :=
  if hasPort st.parentIn pin1.1 = false ∨ hasPort st.childOut pin2.1 = false then
    none
  else
    let chosen :=
      match getNet st.parentIn pin1.1 pin1.2 with
      | some v => v
      | none =>
        match getNet st.childOut pin2.1 pin2.2 with
        | some v => v
        | none => netName
    let st1 := { st with
      parentIn := setNet st.parentIn pin1.1 pin1.2 chosen,
      childOut := setNet st.childOut pin2.1 pin2.2 chosen,
      childLinked := true }
    some (chosen, st1)

/-- Embedding of `ExpressionGraph.add_edge(parent, pin1, child, pin2)`:
proposes the net `"$n{next_net}_{name}"`, delegates to `add_child`,
increments `next_net` only when the proposed name was actually used, and
either extends the existing edge record between the pair (appending the pin
pair and net) or creates a fresh record. -/
def addEdge (st : PairSt) (pin1 pin2 : String × Nat) : Option PairSt :=
  let proposed := Net.auto st.nextNet st.gname
  match addChild st pin1 pin2 proposed with
  | none => none
  | some (netName, st1) =>
    let st2 :=
      if netName = proposed then { st1 with nextNet := st1.nextNet + 1 } else st1
    match st2.edge with
    | some e =>
      let e2 : EdgeRec :=
        { ins := e.ins ++ [pin1], outs := e.outs ++ [pin2],
          edgeNets := e.edgeNets ++ [netName] }
      some { st2 with edge := some e2 }
    | none =>
      let e2 : EdgeRec :=
        { ins := [pin1], outs := [pin2], edgeNets := [netName] }
      some { st2 with edge := some e2 }

/-- Pair state of two freshly created nodes: one relevant single-bit port on
each side, no assigned nets, not linked, no edge record. -/
def freshPairSt (n0 : Nat) (g pn1 pn2 : String) : PairSt :=
  { nextNet := n0, gname := g,
    parentIn := [(pn1, [none])], childOut := [(pn2, [none])],
    childLinked := false, edge := none }

/-- Block bookkeeping shared by `ExpressionGraph` and `prefix_graph`: the
`blocks` list (a `none` entry is a free id slot; a `some` entry holds the
member node ids of that block), the `next_block` counter, and every node's
`block` attribute (nodes are identified by ids, `nodeBlock` maps a node id
to its block assignment). -/
structure BlockSt where
  nextBlock : Nat
  blocks : List (Option (List Nat))
  nodeBlock : Nat → Option Nat

/-- Fresh `ExpressionGraph` block state: `self.next_block = 0`,
`self.blocks = [None]`, no node assigned. -/
def egInit : BlockSt :=
  { nextBlock := 0, blocks := [none], nodeBlock := fun _ => none }

/-- Fresh `prefix_graph` block state: `self.next_block = 1`,
`self.blocks = [None, None]`, no node assigned. -/
def pgInit : BlockSt :=
  { nextBlock := 1, blocks := [none, none], nodeBlock := fun _ => none }

/-- Embedding of `next(x for x in range(start, len(blocks)) if blocks[x] is
None)`: index of the first free slot at or after `start`. -/
def findFreeFrom (blocks : List (Option (List Nat))) (start : Nat) : Nat :=
  start + List.findIdx (fun b => b.isNone) (blocks.drop start)

/-- Embedding of `ExpressionGraph.add_block(*nodes)`: raises (`none`) when a
member already has a block (no depth-level check exists in this class);
returns `(None, st)` unchanged on an empty member list; otherwise assigns
`next_block` to every member, stores the block, appends a free slot when the
tail slot was just consumed, and recomputes `next_block` as the first free
slot scanning from 0. -/
def egAddBlock (st : BlockSt) (nodes : List Nat) :
    Option (Option Nat × BlockSt) :=
  if nodes.all (fun n => (st.nodeBlock n).isNone) = false then none
  else if nodes.isEmpty then some (none, st)
  else
    let bid := st.nextBlock
    let nodeBlock := fun n => if nodes.contains n then some bid else st.nodeBlock n
    let blocks1 := st.blocks.set bid (some nodes)
    let blocks2 := if bid = blocks1.length - 1 then blocks1 ++ [none] else blocks1
    some (some bid,
      { nextBlock := findFreeFrom blocks2 0, blocks := blocks2,
        nodeBlock := nodeBlock })

/-- Embedding of `ExpressionGraph.remove_block(block_id)`: raises (`none`)
on an out-of-range or already-free id; otherwise clears the members' block
attribute and frees the slot.  `next_block` is left untouched, exactly as in
the source. -/
def egRemoveBlock (st : BlockSt) (bid : Nat) : Option BlockSt :=
  if st.blocks.length ≤ bid ∨ (st.blocks.getD bid none).isNone then none
  else
    let members := (st.blocks.getD bid none).getD []
    some { nextBlock := st.nextBlock,
           blocks := st.blocks.set bid none,
           nodeBlock := fun n => if members.contains n then none
                                 else st.nodeBlock n }

/-- Embedding of `prefix_graph.add_block(*nodes)`: like the
`ExpressionGraph` version but with the additional check that no two members
share a level (`len([n.y for n in nodes]) != len(set(...))` raises), the
free-slot append happening before the store, and the free-slot scan starting
from 1.  `ys` maps a node id to its `y` attribute. -/
def pgAddBlock (st : BlockSt) (ys : Nat → Int) (nodes : List Nat) :
    Option (Option Nat × BlockSt) :=
  if nodes.all (fun n => (st.nodeBlock n).isNone) = false then none
  else if ¬ (nodes.map ys).Nodup then none
  else if nodes.isEmpty then some (none, st)
  else
    let bid := st.nextBlock
    let nodeBlock := fun n => if nodes.contains n then some bid else st.nodeBlock n
    let blocks1 := if bid = st.blocks.length - 1 then st.blocks ++ [none]
                   else st.blocks
    let blocks2 := blocks1.set bid (some nodes)
    some (some bid,
      { nextBlock := findFreeFrom blocks2 1, blocks := blocks2,
        nodeBlock := nodeBlock })

/-- Tests whether `pat` is an initial segment of `s` (helper for the Python
substring operators used by `util.verso_pin`). -/
def startsWithPat : List Char → List Char → Bool
  | [], _ => true
  | _ :: _, [] => false
  | p :: ps, c :: cs => p == c && startsWithPat ps cs

/-- Embedding of the Python containment test `pat in s` (for nonempty
`pat`). -/
def occursIn (pat : List Char) : List Char → Bool
  | [] => pat.isEmpty
  | c :: cs => startsWithPat pat (c :: cs) || occursIn pat cs

/-- Embedding of Python `s.replace(pat, rep)`: replaces every non-overlapping
occurrence left to right.  `fuel` (instantiated with the length of `s`)
makes the recursion structural; it suffices whenever `pat` is nonempty,
which holds for the two patterns `"out"`/`"in"` the source uses. -/
def replaceAllGo (pat rep : List Char) : Nat → List Char → List Char
  | 0, s => s
  | _ + 1, [] => []
  | fuel + 1, c :: cs =>
    if startsWithPat pat (c :: cs) then
      rep ++ replaceAllGo pat rep fuel (cs.drop (pat.length - 1))
    else c :: replaceAllGo pat rep fuel cs

/-- Runs `replaceAllGo` with enough fuel. -/
def replaceAll (pat rep s : List Char) : List Char :=
  replaceAllGo pat rep s.length s

/-- Embedding of `util.verso_pin(x)`:
`x.replace("out", "in") if "out" in x else x.replace("in", "out")`. -/
def verso_pin (x : String) : String :=
  if occursIn ['o', 'u', 't'] x.data then
    String.mk (replaceAll ['o', 'u', 't'] ['i', 'n'] x.data)
  else
    String.mk (replaceAll ['i', 'n'] ['o', 'u', 't'] x.data)

/-- Input-port tuple of the external module catalog, as `match_nodes` reads
it: `port[0]` is the name and `port[2+j]` the fan-in width at child index
`j` (`widths[j]` here; `port[1]`, the total width, is never read by the
matcher). -/
structure InPort where
  pname : String
  widths : List Nat
deriving DecidableEq, Repr

/-- Output-port tuple of the catalog: `port[0]` is the name, `port[1]` the
width (the matcher only reads the name). -/
structure OutPort where
  pname : String
  width : Nat
deriving DecidableEq, Repr

/-- Fan-in width `port[2 + i]` of an input port at child index `i`. -/
def widthAt (p : InPort) (i : Nat) : Nat := p.widths.getD i 0

/-- Embedding of the offset loop of `match_nodes`:
`offset = 0; for x in range(index): offset += port[2 + x]`. -/
def offsetOf (p : InPort) (i : Nat) : Nat :=
  ((List.range i).map (fun x => widthAt p x)).sum

/-- One matched (parent pin, child pin) pair: `((name, bit), (name, bit))`. -/
abbrev PinPair := (String × Nat) × (String × Nat)

/-- Embedding of `util.get_matching_port(port, other_ports)`: the first
port of `other_ports` whose verso name equals `port[0]`; the `ValueError`
raised when none exists is `none`. -/
def get_matching_port (p : InPort) (others : List OutPort) : Option OutPort :=
  others.find? (fun op => p.pname == verso_pin op.pname)

/-- Pin pairs `match_nodes` emits for one required input port `p` matched to
the child port `mp`: one pair per bit, parent side offset by `offsetOf`. -/
def portPairs (p : InPort) (mp : OutPort) (i : Nat) : List PinPair :=
  (List.range (widthAt p i)).map
    (fun b => ((p.pname, offsetOf p i + b), (mp.pname, b)))

/-- Iteration of `match_nodes` over the parent's input ports: skips ports
with zero fan-in at `i`, fails (`None`) when a required port has no verso
match on the child, and otherwise accumulates the pin pairs in port order. -/
def matchGo (childOuts : List OutPort) (i : Nat) :
    List InPort → Option (List PinPair)
  | [] => some []
  | p :: rest =>
    if widthAt p i = 0 then matchGo childOuts i rest
    else
      match get_matching_port p childOuts with
      | none => none
      | some mp =>
        match matchGo childOuts i rest with
        | none => none
        | some l => some (portPairs p mp i ++ l)

/-- Embedding of `util.match_nodes(parent, child, index)` over the port
lists the catalog stores for the two module types. -/
def match_nodes (parentIns : List InPort) (childOuts : List OutPort)
    (i : Nat) : Option (List PinPair) :=
  matchGo childOuts i parentIns

/-- Port-matcher result written from the specification's words: one
(parent_pin, child_pin) pair per bit of each input port requiring a
connection at the child index, the parent-side bit offset being the sum of
that port's declared widths at all earlier child indices, the child pin
being the verso output port. -/
def specMatchResult (parentIns : List InPort) (childOuts : List OutPort)
    (i : Nat) : List PinPair :=
  (parentIns.filter (fun p => widthAt p i != 0)).flatMap
    (fun p =>
      match get_matching_port p childOuts with
      | some mp =>
        (List.range (widthAt p i)).map
          (fun b =>
            ((p.pname, (((List.range i).map (fun x => widthAt p x)).sum) + b),
             (mp.pname, b)))
      | none => [])

/-- Net identifier of `prefix_graph`: procedurally generated integer ids or
externally fixed `"$..."` names. -/
inductive PNet where
  | num (k : Nat)
  | fixedName (s : String)
deriving DecidableEq, Repr

/-- Pin store of a `prefix_node`: port name to per-bit optional nets. -/
abbrev PNetMap := List (String × List (Option PNet))

/-- Reads `nets[pn][b]`. -/
def pgGetNet (m : PNetMap) (pn : String) (b : Nat) : Option PNet :=
  match m.find? (fun e => e.1 == pn) with
  | none => none
  | some e => e.2.getD b none

/-- Membership test `pn in nets`. -/
def pgHasPort (m : PNetMap) (pn : String) : Bool :=
  (m.find? (fun e => e.1 == pn)).isSome

/-- Writes `nets[pn][b] = v`. -/
def pgSetNet (m : PNetMap) (pn : String) (b : Nat) (v : PNet) : PNetMap :=
  m.map (fun e => if e.1 == pn then (e.1, e.2.set b (some v)) else e)

/-- State touched by `prefix_graph.add_edge`: the graph's net counter, the
two nodes' levels, `n1`'s output pins, `n2`'s input pins, and the count of
parallel edge records between the ordered pair (a `MultiDiGraph` adds one
per call; GraphViz attributes and the `upstream` set are not modeled). -/
structure PGSt where
  nextNet : Nat
  n1y : Int
  n2y : Int
  n1outs : PNetMap
  n2ins : PNetMap
  edges : Nat
deriving Repr

/-- Embedding of `prefix_graph.add_edge(n1, pin1, n2, pin2)`: raises
(`none`) when the levels are not adjacent, when the direction is wrong, or
when `pin1`/`pin2` name no output/input port of `n1`/`n2` — all three checks
precede the first mutation in the source.  Otherwise draws the next integer
net id, increments the counter unconditionally, prefers a net already
assigned on `n1`'s output pin, then one on `n2`'s input pin, writes the
chosen net to both pins and appends an edge record. -/
def pgAddEdge (st : PGSt) (pin1 pin2 : String × Nat) : Option PGSt :=
  if (st.n1y - st.n2y).natAbs ≠ 1 then none
  else if st.n2y ≤ st.n1y then none
  else if pgHasPort st.n1outs pin1.1 = false ∨ pgHasPort st.n2ins pin2.1 = false
  then none
  else
    let drawn := PNet.num st.nextNet
    let edgeName :=
      match pgGetNet st.n1outs pin1.1 pin1.2 with
      | some v => v
      | none =>
        match pgGetNet st.n2ins pin2.1 pin2.2 with
        | some v => v
        | none => drawn
    some { st with
      nextNet := st.nextNet + 1,
      n1outs := pgSetNet st.n1outs pin1.1 pin1.2 edgeName,
      n2ins := pgSetNet st.n2ins pin2.1 pin2.2 edgeName,
      edges := st.edges + 1 }

/-- Node attributes `longest_path` reads: `nid` models Python object
identity (two distinct `prefix_node` objects are never `==`), `x` the
column, `existsFlag` the module's physical-existence flag tested by
`prefix_node._exists`, and `block` the block assignment. -/
structure LPNode where
  nid : Nat
  x : Int
  existsFlag : Bool
  block : Option Nat
deriving DecidableEq, Repr

/-- Accumulated distance table `dists` of `longest_path`: an association
list in insertion (topological) order; the value of a node is the pair
`(best predecessor, accumulated weight)`. -/
abbrev DistTable := List (LPNode × LPNode × Nat)

/-- Lookup `dists[n]`, `none` modelling a `KeyError`. -/
def dlookup (d : DistTable) (n : LPNode) : Option (LPNode × Nat) :=
  (d.find? (fun e => e.1 == n)).map (fun e => e.2)

/-- Embedding of Python `max(iterable, key=..., default=None)` via a strict
"greater" test on elements: the first maximal element is kept, exactly as
`max` keeps the earliest of equal keys. -/
def pymax {α : Type} (gt : α → α → Bool) (l : List α) : Option α :=
  l.foldl
    (fun acc x =>
      match acc with
      | none => some x
      | some b => if gt x b then some x else some b)
    none

/-- Strict comparison of the DP keys `(x[1], x[0].x)` used by
`max(weight_list, key=lambda x: (x[1], x[0].x), default=(n, 0))`. -/
def gtKey1 (a b : LPNode × Nat) : Bool :=
  a.2 > b.2 || (a.2 == b.2 && a.1.x > b.1.x)

/-- Lexicographic strict comparison of the selection keys
`(x != dists[x][0], is_node(x), dists[x][1], -dists[x][0].x)`. -/
def lexGt4 (a b : Bool × Bool × Nat × Int) : Bool :=
  (a.1 && !b.1)
  || (a.1 == b.1 &&
      ((a.2.1 && !b.2.1)
       || (a.2.1 == b.2.1 &&
           (a.2.2.1 > b.2.2.1
            || (a.2.2.1 == b.2.2.1 && a.2.2.2 > b.2.2.2)))))

/-- Selection key of a node drawn from the (filtered) `dists` table. -/
def key2 (d : DistTable) (n : LPNode) : Bool × Bool × Nat × Int :=
  match dlookup d n with
  | some v => (!(n == v.1), n.existsFlag, v.2, -v.1.x)
  | none => (false, n.existsFlag, 0, 0)

/-- DP loop of `longest_path`: for each node (in topological order, blocked
nodes dropped) collect `(v, dists[v][1] + weight)` over unblocked
predecessors — a missing `dists[v]` entry is a `KeyError` (`.error`) — and
store the maximum with default `(n, 0)`. -/
def buildDists (pred : LPNode → List (LPNode × Nat)) :
    List LPNode → DistTable → Except Unit DistTable
  | [], d => .ok d
  | n :: rest, d =>
    let wlo := ((pred n).filter (fun e => e.1.block.isNone)).mapM
      (fun e =>
        match dlookup d e.1 with
        | some pv => some (e.1, pv.2 + e.2)
        | none => none)
    match wlo with
    | none => .error ()
    | some wl =>
      let best := (pymax gtKey1 wl).getD (n, 0)
      buildDists pred rest (d ++ [(n, best)])

/-- Path reconstruction loop of `longest_path`
(`while n1 != n2: if not n1 in dists: break; path.append(n1); n2 = n1;
n1 = dists[n1][0]`).  The fuel, instantiated above the table size, bounds
the iterations of the source's `while` loop; it is never exhausted on the
inputs the theorems below evaluate. -/
def walkGo (d : DistTable) : Nat → LPNode → Option LPNode → List LPNode →
    List LPNode
  | 0, _, _, path => path
  | fuel + 1, n1, n2, path =>
    if some n1 == n2 then path
    else
      match dlookup d n1 with
      | none => path
      | some v => walkGo d fuel v.1 (some n1) (path ++ [n1])

/-- Embedding of `prefix_graph.longest_path()`.  `topo` is the
lexicographical topological order of the graph's nodes and `pred n` the
weighted predecessor list of `n` (`self.pred[n].items()` with the first
parallel edge's weight).  After the DP pass the table is rebound to its
filtered form — exactly as the source reassigns `dists` — and the three
guard lines are modeled faithfully: each one evaluates `dists[n1]` even
when `n1` has just been set to `None`, which is a `KeyError` (`.error`). -/
def longestPath (topo : List LPNode) (pred : LPNode → List (LPNode × Nat)) :
    Except Unit (Option (List LPNode)) :=
  match buildDists pred (topo.filter (fun n => n.block.isNone)) [] with
  | .error e => .error e
  | .ok dists0 =>
    let dists := dists0.filter (fun e => e.1.existsFlag || e.2.2 != 0)
    let n1a := pymax (fun a b => lexGt4 (key2 dists a) (key2 dists b))
      (dists.map (fun e => e.1))
    let n1b :=
      match n1a with
      | some n => if n.existsFlag then some n else none
      | none => none
    match n1b with
    | none => .error ()
    | some n =>
      match dlookup dists n with
      | none => .error ()
      | some v =>
        let n1c := if n == v.1 then none else some n
        match n1c with
        | none => .error ()
        | some n' =>
          match dlookup dists n' with
          | none => .error ()
          | some v' =>
            if (dists.find? (fun e => e.1 == v'.1)).isSome then
              .ok (some (walkGo dists (dists.length + 1) n' none []))
            else
              .ok none

/-- Cumulative chain distance: the sum of the first `m` edge weights. -/
def chainD (w : Nat → Nat) (m : Nat) : Nat :=
  ((List.range m).map w).sum

/-- Distance table the DP pass of `longest_path` accumulates on a linear
chain (node `i` at position `i`, best predecessor `i - 1`, distance the
cumulative weight; the source node `0` stores itself with distance 0). -/
def chainEntries (c : Nat → LPNode) (w : Nat → Nat) (m : Nat) : DistTable :=
  (List.range m).map (fun i => (c i, (c (i - 1), chainD w i)))

/-- C1: for width `w = 7` the claimed round trip `rank(unrank(r)) = r` fails
inside the valid rank domain: start point `110 < catalan(6) = 132` is valid,
yet ranking the tree built from start point `110` yields `111` (and start
point `111` yields `110`: the two mirror-ambiguous middle-split shapes are
exchanged).  This evaluates the embedded code at the failing input for the
code_bug record of claim C1. -/
theorem C1_rank_unrank_roundtrip_fails :
    110 < catalan (7 - 1) ∧ treeRank 7 110 = 111 ∧ treeRank 7 111 = 110 := by
  refine ⟨by decide, by decide, by decide⟩

/-- C3 counterexample: the claim applies `right_rotate` to the node returned
by `left_rotate`, but `left_rotate` returns the pivot, which now occupies its
former parent's place.  Rotating the pivot at the root's right child of the
width-3 shape succeeds and returns the new subtree root (path `[]`), where
`right_rotate` fails (`node.parent is None`), so the composite never restores
the original shape. -/
theorem C3_right_rotate_of_returned_node_fails :
    leftRotateAt (.node .leaf (.node .leaf .leaf)) [true]
      = some (.node (.node .leaf .leaf) .leaf)
    ∧ rightRotateAt (.node (.node .leaf .leaf) .leaf) [] = none := by
  exact ⟨by decide, by decide⟩

/-- C3 (amended): `left_rotate(node)` followed by `right_rotate` applied to
child 0 of the node `left_rotate` returns (that child is the pivot's former
parent) restores the subtree — hence the whole tree and its rank — for every
legal pivot.  The returned pivot sits at `p.dropLast`, so its child 0 sits at
`p.dropLast ++ [false]`. -/
theorem C3_left_rotate_right_rotate_inverse :
    ∀ (p : Path) (t t' : BTree), leftRotateAt t p = some t' →
      rightRotateAt t' (p.dropLast ++ [false]) = some t := by
  intro p
  induction p with
  | nil => intro t t' h; simp [leftRotateAt] at h
  | cons d q ih =>
    intro t t' h
    cases t with
    | leaf => simp [leftRotateAt] at h
    | node l r =>
      cases q with
      | nil =>
        cases d with
        | false => simp [leftRotateAt] at h
        | true =>
          cases r with
          | leaf => simp [leftRotateAt] at h
          | node rl rr =>
            simp only [leftRotateAt, Option.some.injEq] at h
            subst h
            simp [rightRotateAt]
      | cons q1 qs =>
        have hstep : List.dropLast (d :: q1 :: qs) ++ [false]
            = d :: (List.dropLast (q1 :: qs) ++ [false]) := by
          simp [List.dropLast]
        obtain ⟨a, as, hcons⟩ :=
          List.exists_cons_of_ne_nil
            (l := List.dropLast (q1 :: qs) ++ [false]) (by simp)
        cases d with
        | true =>
          simp only [leftRotateAt, Option.map_eq_some'] at h
          obtain ⟨r', hr, ht⟩ := h
          subst ht
          have h2 := ih r r' hr
          rw [hstep, hcons]
          rw [hcons] at h2
          simp [rightRotateAt, h2]
        | false =>
          simp only [leftRotateAt, Option.map_eq_some'] at h
          obtain ⟨l', hl, ht⟩ := h
          subst ht
          have h2 := ih l l' hl
          rw [hstep, hcons]
          rw [hcons] at h2
          simp [rightRotateAt, h2]

/-- C3 witness: the amended inverse law applied at the concrete width-3
pivot of the counterexample. -/
theorem C3_left_rotate_right_rotate_inverse_witness :
    rightRotateAt (.node (.node .leaf .leaf) .leaf)
        (([true] : Path).dropLast ++ [false])
      = some (.node .leaf (.node .leaf .leaf)) :=
  C3_left_rotate_right_rotate_inverse [true] (.node .leaf (.node .leaf .leaf))
    (.node (.node .leaf .leaf) .leaf) (by decide)

/-- C8: a rotation succeeds only when the pivot has a parent with a full
set of `radix` children (in a well-formed binary shape every parent on a
valid path is an internal node with both children, and an empty path means
`node.parent is None`) and the pivot occupies the expected child slot: the
right slot (`true`) for `left_rotate`, the left slot (`false`) for
`right_rotate`.  Contrapositively, every pivot violating either condition
makes the operation fail with an error, and the `none` result models the
source raising before any mutation (all `ValueError` checks in
`left_rotate`/`right_rotate` precede the first state change). -/
theorem C8_rotation_preconditions :
    ∀ (p : Path) (t : BTree),
      (leftRotateAt t p ≠ none → p ≠ [] ∧ p.getLast? = some true)
      ∧ (rightRotateAt t p ≠ none → p ≠ [] ∧ p.getLast? = some false) := by
  intro p
  induction p with
  | nil =>
    intro t
    refine ⟨fun h => ?_, fun h => ?_⟩
    · simp [leftRotateAt] at h
    · simp [rightRotateAt] at h
  | cons d q ih =>
    intro t
    cases t with
    | leaf =>
      constructor
      · intro h; simp [leftRotateAt] at h
      · intro h; simp [rightRotateAt] at h
    | node l r =>
      cases q with
      | nil =>
        cases d with
        | true =>
          refine ⟨fun _ => ⟨by simp, rfl⟩, fun h => ?_⟩
          simp [rightRotateAt] at h
        | false =>
          refine ⟨fun h => ?_, fun _ => ⟨by simp, rfl⟩⟩
          simp [leftRotateAt] at h
      | cons q1 qs =>
        cases d with
        | true =>
          constructor
          · intro h
            have hinner : leftRotateAt r (q1 :: qs) ≠ none := by
              intro hn
              simp only [leftRotateAt] at h
              simp [hn] at h
            have := ((ih r).1) hinner
            exact ⟨by simp, by simpa [List.getLast?_cons_cons] using this.2⟩
          · intro h
            have hinner : rightRotateAt r (q1 :: qs) ≠ none := by
              intro hn
              simp only [rightRotateAt] at h
              simp [hn] at h
            have := ((ih r).2) hinner
            exact ⟨by simp, by simpa [List.getLast?_cons_cons] using this.2⟩
        | false =>
          constructor
          · intro h
            have hinner : leftRotateAt l (q1 :: qs) ≠ none := by
              intro hn
              simp only [leftRotateAt] at h
              simp [hn] at h
            have := ((ih l).1) hinner
            exact ⟨by simp, by simpa [List.getLast?_cons_cons] using this.2⟩
          · intro h
            have hinner : rightRotateAt l (q1 :: qs) ≠ none := by
              intro hn
              simp only [rightRotateAt] at h
              simp [hn] at h
            have := ((ih l).2) hinner
            exact ⟨by simp, by simpa [List.getLast?_cons_cons] using this.2⟩

/-- C8 witness: the precondition law applied to the successful left rotation
of the width-3 shape at its right child. -/
theorem C8_rotation_preconditions_witness :
    ([true] : Path) ≠ [] ∧ ([true] : Path).getLast? = some true :=
  (C8_rotation_preconditions [true] (.node .leaf (.node .leaf .leaf))).1 (by decide)

/-- Stored mask of an `ETree` leaf. -/
@[simp] theorem leafsOf_leaf (m : Nat) : leafsOf (.leaf m) = m := rfl

/-- Stored mask of an `ETree` internal node. -/
@[simp] theorem leafsOf_node (s : Nat) (l r : ETree) :
    leafsOf (.node s l r) = s := rfl

/-- Bound on the split position chosen by the unranking loop: starting at
iteration `i` with `fuel` further iterations, the loop stops at an index at
most `i + fuel`. -/
theorem splitGo_fst_le (width : Nat) :
    ∀ (fuel i rank : Nat), (splitGo width i rank fuel).1 ≤ i + fuel := by
  intro fuel
  induction fuel with
  | zero => intro i rank; simp [splitGo]
  | succ n ih =>
    intro i rank
    simp only [splitGo]
    split
    · simp
    · exact le_trans (ih (i + 1) _) (by omega)

/-- The split position of `unrank` never exceeds the end of its
`range((width+1)//2)` loop. -/
theorem split_fst_le (rank width : Nat) :
    (split rank width).1 ≤ (width + 1) / 2 - 1 := by
  simpa using splitGo_fst_le width ((width + 1) / 2 - 1) 0 rank

/-- Leaf count of an unranked shape: a call with parameter `width` builds a
subtree with `width + 1` leaves (the fuel is irrelevant as long as it
dominates `width`, which holds at every call site used below). -/
theorem numLeaves_unrankGo :
    ∀ (fuel width rank : Nat) (mirror : Bool), width < fuel →
      numLeaves (unrankGo fuel rank width mirror) = width + 1 := by
  intro fuel
  induction fuel with
  | zero => intro width rank mirror h; omega
  | succ n ih =>
    intro width rank mirror h
    by_cases hw : width = 0
    · subst hw; simp [unrankGo, numLeaves]
    · have hwpos : 1 ≤ width := Nat.one_le_iff_ne_zero.mpr hw
      have hhalf : (width + 1) / 2 - 1 ≤ width - 1 := by omega
      simp only [unrankGo]
      rw [if_neg hw]
      cases hmt : mirrorTest rank width
      · have hb := le_trans (split_fst_le rank width) hhalf
        cases mirror <;>
          simp only [Bool.not_false, Bool.not_true, if_true, if_false,
            Bool.false_eq_true, Bool.true_eq_false, ite_true, ite_false,
            numLeaves] <;>
          rw [ih ((split rank width).1) _ _ (by omega),
              ih (width - (split rank width).1 - 1) _ _ (by omega)] <;>
          omega
      · have hb := le_trans (split_fst_le (catalan width - 1 - rank) width) hhalf
        cases mirror <;>
          simp only [Bool.not_false, Bool.not_true, if_true, if_false,
            Bool.false_eq_true, Bool.true_eq_false, ite_true, ite_false,
            numLeaves] <;>
          rw [ih ((split (catalan width - 1 - rank) width).1) _ _ (by omega),
              ih (width - (split (catalan width - 1 - rank) width).1 - 1) _ _
                (by omega)] <;>
          omega

/-- Appending pools distributes over the accumulated OR. -/
theorem orAll_append (xs ys : List Nat) :
    orAll (xs ++ ys) = orAll xs ||| orAll ys := by
  induction xs with
  | nil => simp [orAll]
  | cons x xs ih => simp [orAll, ih, Nat.lor_assoc]

/-- The constructor's recalculated masks: `buildMasks` consumes one pool
element per leaf and stores, at the top of the result, the OR of the
consumed prefix of the pool. -/
theorem buildMasks_spec :
    ∀ (t : BTree) (pool : List Nat),
      (buildMasks t pool).2 = pool.drop (numLeaves t)
      ∧ leafsOf (buildMasks t pool).1 = orAll (pool.take (numLeaves t)) := by
  intro t
  induction t with
  | leaf =>
    intro pool
    refine ⟨by simp [buildMasks, numLeaves, List.drop_one], ?_⟩
    cases pool <;> simp [buildMasks, numLeaves, leafsOf, orAll]
  | node l r ihl ihr =>
    intro pool
    obtain ⟨hl2, hl1⟩ := ihl pool
    obtain ⟨hr2, hr1⟩ := ihr ((buildMasks l pool).2)
    constructor
    · simp only [buildMasks]
      rw [hr2, hl2, List.drop_drop]
      rfl
    · simp only [buildMasks, leafsOf_node, recalcLeafs, List.foldl]
      rw [hl2] at hr1
      rw [hl1, hl2, hr1]
      have hnl : numLeaves (BTree.node l r) = numLeaves l + numLeaves r := rfl
      rw [hnl, List.take_add, orAll_append]
      simp

/-- Every tree produced by `buildMasks` satisfies the leafs invariant:
each internal node stores exactly the recalculated OR of its children. -/
theorem buildMasks_inv :
    ∀ (t : BTree) (pool : List Nat), leafsInvB (buildMasks t pool).1 = true := by
  intro t
  induction t with
  | leaf => intro pool; simp [buildMasks, leafsInvB]
  | node l r ihl ihr =>
    intro pool
    simp [buildMasks, leafsInvB, ihl pool, ihr]

/-- OR of the whole constructor pool: the masks `2^0 .. 2^(w-1)` OR to
`2^w - 1`. -/
theorem orAll_leafPool (w : Nat) : orAll (leafPool w) = 2 ^ w - 1 := by
  induction w with
  | zero => simp [leafPool, orAll]
  | succ n ih =>
    have hstep : leafPool (n + 1) = 2 ^ n :: leafPool n := by
      simp [leafPool, List.range_succ]
    rw [hstep, orAll, ih]
    apply Nat.eq_of_testBit_eq
    intro i
    simp only [Nat.testBit_lor, Nat.testBit_two_pow, Nat.testBit_two_pow_sub_one]
    by_cases h1 : n = i
    · subst h1
      simp
    · by_cases h2 : i < n <;> simp [h1, h2] <;> omega

/-- The constructor pool has one mask per leaf. -/
theorem leafPool_length (w : Nat) : (leafPool w).length = w := by
  simp [leafPool]

/-- C2: every node with children of a freshly constructed tree stores, as
its `leafs` bitmask, the bitwise OR of its children's masks, and the root's
mask is `(1 << w) - 1`; moreover a structural change below any node followed
by the `_recalculate_leafs` recomputation propagated to all ancestors
(`eReplaceAt`) re-establishes the invariant whenever the spliced-in subtree
satisfies it. -/
theorem C2_leafs_invariant_and_root_mask :
    (∀ w r : Nat, 1 ≤ w →
      leafsInvB (constructedTree w r) = true
      ∧ leafsOf (constructedTree w r) = 2 ^ w - 1)
    ∧ (∀ (t sub t' : ETree) (p : Path),
        leafsInvB t = true → leafsInvB sub = true →
        eReplaceAt t p sub = some t' → leafsInvB t' = true) := by
  constructor
  · intro w r hw
    refine ⟨buildMasks_inv _ _, ?_⟩
    have hnum : numLeaves (treeShape w r) = w := by
      have : w - 1 < w := by omega
      have h := numLeaves_unrankGo w (w - 1) r false this
      rw [treeShape, h]
      omega
    have hspec := (buildMasks_spec (treeShape w r) (leafPool w)).2
    rw [constructedTree, hspec, hnum]
    rw [List.take_of_length_le (le_of_eq (leafPool_length w))]
    exact orAll_leafPool w
  · intro t sub t' p
    induction p generalizing t t' with
    | nil =>
      intro _ hsub h
      simp only [eReplaceAt, Option.some.injEq] at h
      subst h; exact hsub
    | cons d q ih =>
      intro ht hsub h
      cases t with
      | leaf m => simp [eReplaceAt] at h
      | node s l r =>
        have hl : leafsInvB l = true := by
          simp only [leafsInvB, Bool.and_eq_true] at ht
          exact ht.1.2
        have hr : leafsInvB r = true := by
          simp only [leafsInvB, Bool.and_eq_true] at ht
          exact ht.2
        cases d with
        | false =>
          simp only [eReplaceAt, Option.map_eq_some'] at h
          obtain ⟨l', hrec, hback⟩ := h
          subst hback
          have hinv := ih l l' hl hsub hrec
          simp [leafsInvB, hinv, hr]
        | true =>
          simp only [eReplaceAt, Option.map_eq_some'] at h
          obtain ⟨r', hrec, hback⟩ := h
          subst hback
          have hinv := ih r r' hr hsub hrec
          simp [leafsInvB, hinv, hl]

/-- C2 witness: the invariant and the root mask evaluated on the width-4
tree built at start point 2. -/
theorem C2_leafs_invariant_and_root_mask_witness :
    leafsInvB (constructedTree 4 2) = true
    ∧ leafsOf (constructedTree 4 2) = 2 ^ 4 - 1 :=
  C2_leafs_invariant_and_root_mask.1 4 2 (by decide)

/-- C4: adding an edge between two fresh nodes assigns the proposed net
`"$n{n0}_{g}"` to both pins and increments the counter; re-adding the edge
with the identical pin pairing finds the assigned net on the endpoint pins
and reuses it: the counter stays put, the pins keep their single net id,
and the existing edge record between the pair is extended with the pin
pairs instead of a second record being created. -/
theorem C4_readd_edge_reuses_net :
    ∀ (n0 : Nat) (g pn1 pn2 : String),
      addEdge (freshPairSt n0 g pn1 pn2) (pn1, 0) (pn2, 0) = some
        { nextNet := n0 + 1, gname := g,
          parentIn := [(pn1, [some (Net.auto n0 g)])],
          childOut := [(pn2, [some (Net.auto n0 g)])],
          childLinked := true,
          edge := some { ins := [(pn1, 0)], outs := [(pn2, 0)],
                         edgeNets := [Net.auto n0 g] } }
      ∧ addEdge
        { nextNet := n0 + 1, gname := g,
          parentIn := [(pn1, [some (Net.auto n0 g)])],
          childOut := [(pn2, [some (Net.auto n0 g)])],
          childLinked := true,
          edge := some { ins := [(pn1, 0)], outs := [(pn2, 0)],
                         edgeNets := [Net.auto n0 g] } } (pn1, 0) (pn2, 0)
        = some
        { nextNet := n0 + 1, gname := g,
          parentIn := [(pn1, [some (Net.auto n0 g)])],
          childOut := [(pn2, [some (Net.auto n0 g)])],
          childLinked := true,
          edge := some { ins := [(pn1, 0), (pn1, 0)],
                         outs := [(pn2, 0), (pn2, 0)],
                         edgeNets := [Net.auto n0 g, Net.auto n0 g] } } := by
  intro n0 g pn1 pn2
  constructor
  · simp [addEdge, addChild, freshPairSt, getNet, setNet, hasPort, List.find?]
  · have hne : Net.auto n0 g ≠ Net.auto (n0 + 1) g := by
      intro h
      cases h
    simp [addEdge, addChild, getNet, setNet, hasPort, List.find?, hne]

/-- Reading back the slot just written by `List.set`. -/
theorem getD_set_self {α : Type} (l : List α) (i : Nat) (v d : α)
    (h : i < l.length) : (l.set i v).getD i d = v := by
  induction l generalizing i with
  | nil => simp at h
  | cons x xs ih =>
    cases i with
    | zero => simp
    | succ n =>
      simp only [List.set_cons_succ, List.getD_cons_succ]
      exact ih n (by simpa using h)

/-- Reading an index inside the left part of an append. -/
theorem getD_append_left {α : Type} (l l' : List α) (i : Nat) (d : α)
    (h : i < l.length) : (l ++ l').getD i d = l.getD i d := by
  induction l generalizing i with
  | nil => simp at h
  | cons x xs ih =>
    cases i with
    | zero => simp
    | succ n =>
      simp only [List.cons_append, List.getD_cons_succ]
      exact ih n (by simpa using h)

/-- C5 counterexample: on a fresh graph, `add_block([n0])` hands out id 0
and leaves `next_block = 1`; `remove_block(0)` clears the member and frees
slot 0 but does not touch `next_block`; the next `add_block` call therefore
assigns the stale id 1, not the freed id 0 — although slot 0 is free at
that moment, refuting both the freed-id-reuse sentence and the
smallest-unused-id sentence of the claim at this input. -/
theorem C5_freed_id_not_reused_by_next_call :
    ∃ p1, egAddBlock egInit [0] = some p1 ∧ p1.1 = some 0 ∧
      ∃ st2, egRemoveBlock p1.2 0 = some st2
        ∧ st2.nodeBlock 0 = none
        ∧ st2.blocks.getD 0 none = none
        ∧ ∃ p3, egAddBlock st2 [1] = some p3 ∧ p3.1 = some 1 :=
  ⟨_, rfl, rfl, _, rfl, rfl, rfl, _, rfl, rfl⟩

/-- C5 (amended): `remove_block(add_block(nodes))` leaves every member with
no block assignment (proved for every state whose `next_block` points
inside the block table, which holds for all reachable states); but the
freed id is assigned by the second following `add_block` call, not the
next one: `add_block` reads the stale `next_block` computed before the
removal and only then rescans, so after the fresh-graph scenario
`add -> remove` the next call hands out id 1 and the call after that hands
out the freed id 0. -/
theorem C5_remove_add_block_roundtrip :
    (∀ (st : BlockSt) (nodes : List Nat) (bid : Nat) (st1 : BlockSt),
        st.nextBlock < st.blocks.length →
        egAddBlock st nodes = some (some bid, st1) →
        (∃ st2, egRemoveBlock st1 bid = some st2)
        ∧ ∀ st2, egRemoveBlock st1 bid = some st2 →
            ∀ n ∈ nodes, st2.nodeBlock n = none)
    ∧ (∃ p1, egAddBlock egInit [0] = some p1 ∧
        ∃ st2, egRemoveBlock p1.2 0 = some st2 ∧
        ∃ p3, egAddBlock st2 [1] = some p3 ∧ p3.1 = some 1 ∧
        ∃ p4, egAddBlock p3.2 [2] = some p4 ∧ p4.1 = some 0) := by
  constructor
  · intro st nodes bid st1 hlen hadd
    by_cases h1 : nodes.all (fun n => (st.nodeBlock n).isNone) = false
    · simp [egAddBlock, h1] at hadd
    · by_cases h2 : nodes.isEmpty
      · simp [egAddBlock, h1, h2] at hadd
      · unfold egAddBlock at hadd
        rw [if_neg h1, if_neg h2] at hadd
        simp only [Option.some.injEq, Prod.mk.injEq] at hadd
        obtain ⟨hbid, hst⟩ := hadd
        subst hbid
        subst hst
        set B := (if st.nextBlock = (st.blocks.set st.nextBlock (some nodes)).length - 1
              then st.blocks.set st.nextBlock (some nodes) ++ [none]
              else st.blocks.set st.nextBlock (some nodes)) with hB
        have hget : B.getD st.nextBlock none = some nodes := by
          rw [hB]
          split
          · rw [getD_append_left _ _ _ _ (by rw [List.length_set]; omega)]
            exact getD_set_self _ _ _ _ (by omega)
          · exact getD_set_self _ _ _ _ (by omega)
        have hltlen : st.nextBlock < B.length := by
          rw [hB]
          split <;>
            simp only [List.length_append, List.length_set, List.length_cons,
              List.length_nil] <;>
            omega
        have hguard :
            ¬ (B.length ≤ st.nextBlock
              ∨ (B.getD st.nextBlock none).isNone = true) := by
          rw [hget]
          simp only [Option.isNone_some, Bool.false_eq_true, or_false]
          omega
        constructor
        · exact ⟨_, by simp only [egRemoveBlock]; rw [if_neg hguard]⟩
        · intro st2 hrem n hn
          simp only [egRemoveBlock] at hrem
          rw [if_neg hguard] at hrem
          rw [hget] at hrem
          simp only [Option.getD_some, Option.some.injEq] at hrem
          subst hrem
          show (if nodes.contains n = true then none
            else if nodes.contains n = true then some st.nextBlock
            else st.nodeBlock n) = none
          rw [if_pos (List.elem_eq_true_of_mem hn)]
  · exact ⟨_, rfl, _, rfl, _, rfl, rfl, _, rfl, rfl⟩

/-- C5 witness: the round-trip law applied to a fresh graph and the
single-member list `[5]`. -/
theorem C5_remove_add_block_roundtrip_witness :
    (∃ st2, egRemoveBlock
      { nextBlock := 1, blocks := [some [5], none],
        nodeBlock := fun n => if ([5] : List Nat).contains n then some 0
                              else none } 0 = some st2)
    ∧ ∀ st2, egRemoveBlock
      { nextBlock := 1, blocks := [some [5], none],
        nodeBlock := fun n => if ([5] : List Nat).contains n then some 0
                              else none } 0 = some st2 →
        ∀ n ∈ ([5] : List Nat), st2.nodeBlock n = none :=
  C5_remove_add_block_roundtrip.1 egInit [5] 0 _ (by decide) rfl

/-- C6 counterexample: `ExpressionGraph.add_block` performs no depth-level
check at all.  Node ids 0 and 1 here stand for two block-free nodes sitting
on the same depth level; the claim requires the call to fail, yet it
succeeds and hands out block id 0 (the embedded `egAddBlock`, like
`ExpressionGraph.add_block` it is read from, never consults any node
coordinate). -/
theorem C6_expression_graph_skips_depth_check :
    ∃ p, egAddBlock egInit [0, 1] = some p ∧ p.1 = some 0 :=
  ⟨_, rfl, rfl⟩

/-- C6 (amended): `prefix_graph.add_block` fails — with all checks placed
before any mutation — whenever a member already belongs to a block or two
members occupy the same depth level; `ExpressionGraph.add_block` keeps only
the first of those checks and accepts members sharing a depth level. -/
theorem C6_add_block_error_conditions :
    (∀ (st : BlockSt) (ys : Nat → Int) (nodes : List Nat),
        ((∃ n ∈ nodes, (st.nodeBlock n).isSome) ∨ ¬ (nodes.map ys).Nodup) →
        pgAddBlock st ys nodes = none)
    ∧ (∀ (st : BlockSt) (nodes : List Nat),
        (∃ n ∈ nodes, (st.nodeBlock n).isSome) →
        egAddBlock st nodes = none) := by
  constructor
  · intro st ys nodes h
    rcases h with ⟨n, hn, hsome⟩ | hdup
    · have hall : nodes.all (fun n => (st.nodeBlock n).isNone) = false := by
        rw [List.all_eq_false]
        refine ⟨n, hn, ?_⟩
        cases hx : st.nodeBlock n
        · rw [hx] at hsome; simp at hsome
        · simp [hx]
      simp [pgAddBlock, hall]
    · by_cases hall : nodes.all (fun n => (st.nodeBlock n).isNone) = false
      · simp [pgAddBlock, hall]
      · simp [pgAddBlock, hall, hdup]
  · intro st nodes h
    obtain ⟨n, hn, hsome⟩ := h
    have hall : nodes.all (fun n => (st.nodeBlock n).isNone) = false := by
      rw [List.all_eq_false]
      refine ⟨n, hn, ?_⟩
      cases hx : st.nodeBlock n
      · rw [hx] at hsome; simp at hsome
      · simp [hx]
    simp [egAddBlock, hall]

/-- C6 witness: two members on the same level make
`prefix_graph.add_block` fail on a fresh graph. -/
theorem C6_add_block_error_conditions_witness :
    pgAddBlock pgInit (fun _ => 0) [0, 1] = none :=
  C6_add_block_error_conditions.1 pgInit (fun _ => 0) [0, 1]
    (Or.inr (by decide))

/-- C9 counterexample: when no input port of the parent requires a
connection at the child index (every fan-in width at index 0 is zero), the
claim says the matcher reports failure; `match_nodes` instead succeeds with
the empty pin-pair list (here the child even offers no port at all), and
its caller connects zero pins without raising. -/
theorem C9_no_required_port_still_matches :
    match_nodes [⟨"a_in", [0, 1]⟩] [] 0 = some []
    ∧ ∀ p ∈ [InPort.mk "a_in" [0, 1]], widthAt p 0 = 0 := by
  exact ⟨rfl, by decide⟩

/-- C9 (amended): the matcher reports failure exactly when some input port
of the parent requiring a connection at the child index has no verso output
port on the child; when no port requires a connection it returns the empty
list of pairs rather than failing; and every successful result is exactly
the spec-described list: one pair per bit of each required port, the
parent-side bit offset being the sum of that port's declared widths at all
earlier child indices. -/
theorem C9_match_nodes_characterization :
    ∀ (P : List InPort) (C : List OutPort) (i : Nat),
      (match_nodes P C i = none ↔
        ∃ p ∈ P, widthAt p i ≠ 0 ∧ get_matching_port p C = none)
      ∧ (∀ l, match_nodes P C i = some l → l = specMatchResult P C i) := by
  intro P C i
  induction P with
  | nil =>
    constructor
    · simp [match_nodes, matchGo]
    · intro l h
      simp only [match_nodes, matchGo, Option.some.injEq] at h
      subst h
      simp [specMatchResult]
  | cons p rest ih =>
    obtain ⟨ih1, ih2⟩ := ih
    by_cases hw : widthAt p i = 0
    · have hskip : match_nodes (p :: rest) C i = match_nodes rest C i := by
        simp [match_nodes, matchGo, hw]
      constructor
      · rw [hskip, ih1]
        constructor
        · rintro ⟨q, hq, hprop⟩
          exact ⟨q, List.mem_cons_of_mem _ hq, hprop⟩
        · rintro ⟨q, hq, hne, hgm⟩
          rcases List.mem_cons.mp hq with rfl | hq'
          · exact absurd hw hne
          · exact ⟨q, hq', hne, hgm⟩
      · intro l h
        rw [hskip] at h
        rw [ih2 l h]
        have hbne : (widthAt p i != 0) = false := by simp [hw]
        simp [specMatchResult, List.filter_cons, hbne]
    · cases hg : get_matching_port p C with
      | none =>
        constructor
        · constructor
          · intro _
            exact ⟨p, List.mem_cons_self p rest, hw, hg⟩
          · intro _
            simp [match_nodes, matchGo, hw, hg]
        · intro l h
          simp [match_nodes, matchGo, hw, hg] at h
      | some mp =>
        cases hr : matchGo C i rest with
        | none =>
          have hrest : match_nodes rest C i = none := hr
          constructor
          · constructor
            · intro _
              obtain ⟨q, hq, hprop⟩ := ih1.mp hrest
              exact ⟨q, List.mem_cons_of_mem _ hq, hprop⟩
            · intro _
              simp [match_nodes, matchGo, hw, hg, hr]
          · intro l h
            simp [match_nodes, matchGo, hw, hg, hr] at h
        | some l0 =>
          constructor
          · constructor
            · intro h
              simp [match_nodes, matchGo, hw, hg, hr] at h
            · rintro ⟨q, hq, hne, hgm⟩
              rcases List.mem_cons.mp hq with rfl | hq'
              · rw [hg] at hgm
                cases hgm
              · have hnone : match_nodes rest C i = none :=
                  ih1.mpr ⟨q, hq', hne, hgm⟩
                rw [show match_nodes rest C i = matchGo C i rest from rfl,
                  hr] at hnone
                cases hnone
          · intro l h
            have hl : l = portPairs p mp i ++ l0 := by
              simp [match_nodes, matchGo, hw, hg, hr] at h
              exact h.symm
            have hrec := ih2 l0 hr
            rw [hl, hrec]
            have hbne : (widthAt p i != 0) = true := by simp [hw]
            simp [specMatchResult, List.filter_cons, hbne, hg, portPairs,
              offsetOf]

/-- C9 witness: the characterization applied to a parent port `gin` with
fan-in width 1 at child index 0 and a child output port `gout` (its verso
is `gin`), yielding the single matched bit pair. -/
theorem C9_match_nodes_characterization_witness :
    [((("gin" : String), 0), (("gout" : String), 0))]
      = specMatchResult [⟨"gin", [1, 0]⟩] [⟨"gout", 1⟩] 0 :=
  (C9_match_nodes_characterization [⟨"gin", [1, 0]⟩] [⟨"gout", 1⟩] 0).2
    _ (by decide)

/-- C10: `prefix_graph.add_edge(n1, pin1, n2, pin2)` succeeds only when `n2`
sits exactly one level below `n1` (`n2.y == n1.y + 1`), `pin1` names an
output port of `n1` and `pin2` an input port of `n2`: every call violating
any of these raises (`none`), and since all three checks precede the first
mutation in the source, the graph, the net counter and the pin assignments
are untouched on failure. -/
theorem C10_add_edge_preconditions :
    ∀ (st : PGSt) (pin1 pin2 : String × Nat),
      (¬ st.n2y = st.n1y + 1
        ∨ pgHasPort st.n1outs pin1.1 = false
        ∨ pgHasPort st.n2ins pin2.1 = false) →
      pgAddEdge st pin1 pin2 = none := by
  intro st pin1 pin2 h
  simp only [pgAddEdge]
  split
  next => rfl
  next h1 =>
    split
    next => rfl
    next h2 =>
      split
      next => rfl
      next h3 =>
        exfalso
        rcases h with hy | hp | hp
        · omega
        · exact h3 (Or.inl hp)
        · exact h3 (Or.inr hp)

/-- C10 witness: two nodes on the same level violate the adjacency
precondition, so the edge is refused. -/
theorem C10_add_edge_preconditions_witness :
    pgAddEdge { nextNet := 1, n1y := 0, n2y := 0, n1outs := [],
                n2ins := [], edges := 0 } ("gout", 0) ("gin", 0) = none :=
  C10_add_edge_preconditions _ _ _ (Or.inl (by decide))

/-- C7 counterexample: on the empty graph the claim says `longest_path`
returns none, but the guard `if n1 == dists[n1][0]` evaluates `dists[None]`
and the call dies with a `KeyError` (`.error`); and on a 2-node weighted
chain the returned node list is the chain in reverse topological order
(sink first), not topological order. -/
theorem C7_crash_and_reversed_order :
    longestPath [] (fun _ => []) = .error ()
    ∧ longestPath [⟨0, 0, true, none⟩, ⟨1, 0, true, none⟩]
        (fun n => if n == (⟨1, 0, true, none⟩ : LPNode)
          then [((⟨0, 0, true, none⟩ : LPNode), 1)] else [])
      = .ok (some [⟨1, 0, true, none⟩, ⟨0, 0, true, none⟩])
    ∧ (some [(⟨1, 0, true, none⟩ : LPNode), ⟨0, 0, true, none⟩]
        ≠ some [(⟨0, 0, true, none⟩ : LPNode), ⟨1, 0, true, none⟩]) := by
  refine ⟨rfl, rfl, by decide⟩

/-- Distinct object identities make the equality test false. -/
theorem lpbeq_false {a b : LPNode} (h : a.nid ≠ b.nid) : (a == b) = false := by
  rw [beq_eq_false_iff_ne]
  intro he
  exact h (congrArg LPNode.nid he)

/-- An element returned by `pymax` belongs to the list (stated over the
underlying fold). -/
theorem pymax_go_mem {α : Type} (gt : α → α → Bool) :
    ∀ (l : List α) (acc : Option α) (m : α),
      l.foldl
        (fun acc x =>
          match acc with
          | none => some x
          | some b => if gt x b then some x else some b)
        acc = some m →
      acc = some m ∨ m ∈ l := by
  intro l
  induction l with
  | nil => intro acc m h; exact Or.inl h
  | cons x xs ih =>
    intro acc m h
    rcases ih _ m h with hstep | hmem
    · cases acc with
      | none =>
        dsimp only at hstep
        simp only [Option.some.injEq] at hstep
        exact Or.inr (by simp [hstep.symm])
      | some b =>
        dsimp only at hstep
        by_cases hgt : gt x b = true
        · rw [if_pos hgt] at hstep
          simp only [Option.some.injEq] at hstep
          exact Or.inr (by simp [hstep.symm])
        · rw [if_neg hgt] at hstep
          exact Or.inl hstep
    · exact Or.inr (List.mem_cons_of_mem _ hmem)

/-- `pymax` over the list member forms. -/
theorem pymax_mem {α : Type} (gt : α → α → Bool) (l : List α) (m : α)
    (h : pymax gt l = some m) : m ∈ l := by
  rcases pymax_go_mem gt l none m h with h' | h'
  · cases h'
  · exact h'

/-- When the appended last element strictly beats every possible maximum of
the preceding list, `pymax` selects it. -/
theorem pymax_append_last {α : Type} (gt : α → α → Bool) (l : List α)
    (a : α) (h : ∀ b, pymax gt l = some b → gt a b = true) :
    pymax gt (l ++ [a]) = some a := by
  have hfold : pymax gt (l ++ [a])
      = (match pymax gt l with
         | none => some a
         | some b => if gt a b then some a else some b) := by
    simp [pymax, List.foldl_append]
  rw [hfold]
  cases hp : pymax gt l with
  | none => rfl
  | some b => simp [h b hp]

/-- Unfolding of the cumulative chain distance. -/
theorem chainD_succ (w : Nat → Nat) (m : Nat) :
    chainD w (m + 1) = chainD w m + w m := by
  simp [chainD, List.range_succ]

/-- Monotonicity of the cumulative chain distance. -/
theorem chainD_le (w : Nat → Nat) :
    ∀ i j, i ≤ j → chainD w i ≤ chainD w j := by
  intro i j hij
  induction j with
  | zero => simp_all
  | succ m ih =>
    rcases Nat.lt_succ_iff_lt_or_eq.mp (Nat.lt_succ_of_le hij) with h | h
    · calc chainD w i ≤ chainD w m := ih (by omega)
        _ ≤ chainD w (m + 1) := by rw [chainD_succ]; omega
    · subst h; rfl

/-- Strict monotonicity of the cumulative chain distance for positive edge
weights. -/
theorem chainD_lt (w : Nat → Nat) (hw : ∀ t, 1 ≤ w t) :
    ∀ i j, i < j → chainD w i < chainD w j := by
  intro i j hij
  have h1 : chainD w i ≤ chainD w (j - 1) := chainD_le w i (j - 1) (by omega)
  have h2 : chainD w ((j - 1) + 1) = chainD w (j - 1) + w (j - 1) :=
    chainD_succ w (j - 1)
  have h3 : (j - 1) + 1 = j := by omega
  rw [h3] at h2
  have := hw (j - 1)
  omega

/-- Unfolding of the chain table by one entry. -/
theorem chainEntries_succ (c : Nat → LPNode) (w : Nat → Nat) (m : Nat) :
    chainEntries c w (m + 1)
      = chainEntries c w m ++ [(c m, (c (m - 1), chainD w m))] := by
  simp [chainEntries, List.range_succ]

/-- Lookup of a chain node in a table of chain entries, given injective
object identities. -/
theorem chain_dlookup_ixs (k : Nat) (c : Nat → LPNode) (w : Nat → Nat)
    (hinj : ∀ i j, i < k → j < k → i ≠ j → (c i).nid ≠ (c j).nid) :
    ∀ (ixs : List Nat) (i : Nat), (∀ t ∈ ixs, t < k) → i < k → i ∈ ixs →
      dlookup (ixs.map (fun t => (c t, (c (t - 1), chainD w t)))) (c i)
        = some (c (i - 1), chainD w i) := by
  intro ixs
  induction ixs with
  | nil => intro i _ _ hmem; cases hmem
  | cons t rest ih =>
    intro i hbound hik hmem
    by_cases hti : t = i
    · subst hti
      simp [dlookup, List.find?]
    · have hne : (c t == c i) = false :=
        lpbeq_false (hinj t i (hbound t (by simp)) hik hti)
      have hmem' : i ∈ rest := by
        rcases List.mem_cons.mp hmem with h | h
        · exact absurd h.symm hti
        · exact h
      have := ih i (fun u hu => hbound u (List.mem_cons_of_mem _ hu)) hik hmem'
      simpa [dlookup, List.find?, hne] using this

/-- Lookup of a chain node in the chain table itself. -/
theorem chain_dlookup (k : Nat) (c : Nat → LPNode) (w : Nat → Nat)
    (hinj : ∀ i j, i < k → j < k → i ≠ j → (c i).nid ≠ (c j).nid)
    (m i : Nat) (him : i < m) (hmk : m ≤ k) :
    dlookup (chainEntries c w m) (c i) = some (c (i - 1), chainD w i) := by
  exact chain_dlookup_ixs k c w hinj (List.range m) i
    (fun t ht => lt_of_lt_of_le (List.mem_range.mp ht) hmk)
    (by omega) (List.mem_range.mpr him)

/-- The DP pass of `longest_path` on a linear chain fills in exactly the
chain table. -/
theorem chain_buildDists (k : Nat) (c : Nat → LPNode) (w : Nat → Nat)
    (pred : LPNode → List (LPNode × Nat))
    (hinj : ∀ i j, i < k → j < k → i ≠ j → (c i).nid ≠ (c j).nid)
    (hblock : ∀ i, i < k → (c i).block = none)
    (hp0 : pred (c 0) = [])
    (hps : ∀ i, i + 1 < k → pred (c (i + 1)) = [(c i, w i)]) :
    ∀ (count j : Nat), j + count = k →
      buildDists pred ((List.range' j count).map c) (chainEntries c w j)
        = .ok (chainEntries c w k) := by
  intro count
  induction count with
  | zero =>
    intro j hj
    have : j = k := by omega
    subst this
    rfl
  | succ n ih =>
    intro j hj
    have hjk : j < k := by omega
    have hrange : List.range' j (n + 1) = j :: List.range' (j + 1) n := rfl
    rw [hrange]
    cases j with
    | zero =>
      have hstep : buildDists pred ((0 :: List.range' 1 n).map c)
          (chainEntries c w 0)
          = buildDists pred ((List.range' 1 n).map c) (chainEntries c w 1) := by
        simp only [List.map_cons, buildDists, hp0, List.filter_nil,
          List.mapM_nil]
        rfl
      rw [hstep]
      exact ih 1 (by omega)
    | succ i =>
      have hlook : dlookup (chainEntries c w (i + 1)) (c i)
          = some (c (i - 1), chainD w i) :=
        chain_dlookup k c w hinj (i + 1) i (by omega) (by omega)
      have hfil : ((pred (c (i + 1))).filter (fun e => e.1.block.isNone))
          = [(c i, w i)] := by
        rw [hps i hjk]
        have : (c i).block = none := hblock i (by omega)
        simp [this]
      have hstep : buildDists pred (((i + 1) :: List.range' (i + 2) n).map c)
          (chainEntries c w (i + 1))
          = buildDists pred ((List.range' (i + 2) n).map c)
            (chainEntries c w (i + 1)
              ++ [(c (i + 1), (c i, chainD w i + w i))]) := by
        simp only [List.map_cons, buildDists, hfil, List.mapM_cons,
          List.mapM_nil, hlook]
        rfl
      rw [hstep]
      have hed : chainEntries c w (i + 1) ++ [(c (i + 1), (c i, chainD w i + w i))]
          = chainEntries c w (i + 2) := by
        rw [chainEntries_succ c w (i + 1), chainD_succ]
        simp
      rw [hed]
      exact ih (i + 2) (by omega)

/-- The reconstruction loop walks a chain from node `j` back to node 0,
appending the nodes sink-first. -/
theorem chain_walk (k : Nat) (c : Nat → LPNode) (w : Nat → Nat)
    (hinj : ∀ i j, i < k → j < k → i ≠ j → (c i).nid ≠ (c j).nid) :
    ∀ j, j < k →
      ∀ (fuel : Nat), j + 2 ≤ fuel →
      ∀ (n2 : Option LPNode), (some (c j) == n2) = false →
      ∀ acc, walkGo (chainEntries c w k) fuel (c j) n2 acc
        = acc ++ ((List.range (j + 1)).reverse.map c) := by
  intro j
  induction j with
  | zero =>
    intro hjk fuel hfuel n2 hne acc
    obtain ⟨f, rfl⟩ : ∃ f, fuel = f + 2 := ⟨fuel - 2, by omega⟩
    have hlook : dlookup (chainEntries c w k) (c 0)
        = some (c 0, chainD w 0) :=
      chain_dlookup k c w hinj k 0 (by omega) (by omega)
    simp only [walkGo, hne, Bool.false_eq_true, if_false, hlook]
    have hself : (some (c 0) == some (c 0)) = true := by simp
    simp only [walkGo, hself, if_true]
    simp [List.range_succ]
  | succ i ihj =>
    intro hjk fuel hfuel n2 hne acc
    obtain ⟨f, rfl⟩ : ∃ f, fuel = f + 1 := ⟨fuel - 1, by omega⟩
    have hlook : dlookup (chainEntries c w k) (c (i + 1))
        = some (c i, chainD w (i + 1)) :=
      chain_dlookup k c w hinj k (i + 1) (by omega) (by omega)
    simp only [walkGo, hne, Bool.false_eq_true, if_false, hlook]
    have hnext : (some (c i) == some (c (i + 1))) = false := by
      have : (c i == c (i + 1)) = false :=
        lpbeq_false (hinj i (i + 1) (by omega) (by omega) (by omega))
      simpa using this
    rw [ihj (by omega) f (by omega) (some (c (i + 1))) hnext (acc ++ [c (i + 1)])]
    simp [List.range_succ]

/-- The endpoint selection of `longest_path` on a chain picks the sink: its
key has the strictly greatest distance component, and its first key
component (`x != dists[x][0]`) is true, unlike the source node's. -/
theorem chain_select (k : Nat) (c : Nat → LPNode) (w : Nat → Nat)
    (hk : 2 ≤ k)
    (hinj : ∀ i j, i < k → j < k → i ≠ j → (c i).nid ≠ (c j).nid)
    (hex : ∀ i, i < k → (c i).existsFlag = true)
    (hw : ∀ t, 1 ≤ w t) :
    pymax
      (fun a b => lexGt4 (key2 (chainEntries c w k) a)
        (key2 (chainEntries c w k) b))
      ((List.range k).map c) = some (c (k - 1)) := by
  have hsplit : List.range k = List.range (k - 1) ++ [k - 1] := by
    rw [← List.range_succ]
    congr 1
    omega
  rw [hsplit, List.map_append]
  apply pymax_append_last
  intro b hb
  obtain ⟨j, hj, rfl⟩ := List.mem_map.mp (pymax_mem _ _ _ hb)
  have hjlt : j < k - 1 := List.mem_range.mp hj
  have hkeyj : key2 (chainEntries c w k) (c j)
      = (!(c j == c (j - 1)), (c j).existsFlag, chainD w j, -(c (j - 1)).x) := by
    simp only [key2, chain_dlookup k c w hinj k j (by omega) (le_refl k)]
  have hkeyk : key2 (chainEntries c w k) (c (k - 1))
      = (!(c (k - 1) == c (k - 1 - 1)), (c (k - 1)).existsFlag,
         chainD w (k - 1), -(c (k - 1 - 1)).x) := by
    simp only [key2, chain_dlookup k c w hinj k (k - 1) (by omega) (le_refl k)]
  have htop : (c (k - 1) == c (k - 1 - 1)) = false :=
    lpbeq_false (hinj (k - 1) (k - 1 - 1) (by omega) (by omega) (by omega))
  rw [hkeyj, hkeyk, htop]
  rcases Nat.eq_zero_or_pos j with h0 | hpos
  · subst h0
    have hz : (c 0 == c (0 - 1)) = true := by simp
    rw [hz]
    simp [lexGt4]
  · have hjne : (c j == c (j - 1)) = false :=
      lpbeq_false (hinj j (j - 1) (by omega) (by omega) (by omega))
    rw [hjne]
    have hd : chainD w j < chainD w (k - 1) := chainD_lt w hw j (k - 1) hjlt
    simp [lexGt4, hex j (by omega), hex (k - 1) (by omega), hd]

/-- The behavior of `longest_path` on a single weighted linear chain of at
least two nodes: it returns the chain's nodes sink-first (reverse
topological order). -/
theorem chain_longestPath (k : Nat) (c : Nat → LPNode) (w : Nat → Nat)
    (pred : LPNode → List (LPNode × Nat))
    (hk : 2 ≤ k)
    (hinj : ∀ i j, i < k → j < k → i ≠ j → (c i).nid ≠ (c j).nid)
    (hex : ∀ i, i < k → (c i).existsFlag = true)
    (hblock : ∀ i, i < k → (c i).block = none)
    (hw : ∀ t, 1 ≤ w t)
    (hp0 : pred (c 0) = [])
    (hps : ∀ i, i + 1 < k → pred (c (i + 1)) = [(c i, w i)]) :
    longestPath ((List.range k).map c) pred
      = .ok (some (((List.range k).reverse).map c)) := by
  have hfilter : ((List.range k).map c).filter (fun n => n.block.isNone)
      = (List.range k).map c := by
    rw [List.filter_eq_self]
    intro a ha
    obtain ⟨i, hi, rfl⟩ := List.mem_map.mp ha
    simp [hblock i (List.mem_range.mp hi)]
  have hbuild : buildDists pred ((List.range k).map c) []
      = .ok (chainEntries c w k) := by
    have h := chain_buildDists k c w pred hinj hblock hp0 hps k 0 (by omega)
    rw [List.range_eq_range']
    exact h
  have hfex : (chainEntries c w k).filter
      (fun e => e.1.existsFlag || e.2.2 != 0) = chainEntries c w k := by
    rw [List.filter_eq_self]
    intro e he
    obtain ⟨i, hi, rfl⟩ := List.mem_map.mp he
    simp [hex i (List.mem_range.mp hi)]
  have hkeys : (chainEntries c w k).map (fun e => e.1)
      = (List.range k).map c := by
    simp [chainEntries, List.map_map, Function.comp]
  have hsel := chain_select k c w hk hinj hex hw
  have hdlk : dlookup (chainEntries c w k) (c (k - 1))
      = some (c (k - 1 - 1), chainD w (k - 1)) :=
    chain_dlookup k c w hinj k (k - 1) (by omega) (le_refl k)
  have hne : (c (k - 1) == c (k - 1 - 1)) = false :=
    lpbeq_false (hinj _ _ (by omega) (by omega) (by omega))
  have hfind : ((chainEntries c w k).find?
      (fun e => e.1 == c (k - 1 - 1))).isSome = true := by
    have hdl2 : dlookup (chainEntries c w k) (c (k - 1 - 1))
        = some (c (k - 1 - 1 - 1), chainD w (k - 1 - 1)) :=
      chain_dlookup k c w hinj k (k - 1 - 1) (by omega) (le_refl k)
    unfold dlookup at hdl2
    cases hfq : (chainEntries c w k).find? (fun e => e.1 == c (k - 1 - 1)) with
    | none => rw [hfq] at hdl2; cases hdl2
    | some e => simp
  have hlen : (chainEntries c w k).length = k := by simp [chainEntries]
  have hwalk := chain_walk k c w hinj (k - 1) (by omega) (k + 1) (by omega)
    none rfl []
  have hk1 : k - 1 + 1 = k := by omega
  rw [hk1] at hwalk
  unfold longestPath
  rw [hfilter, hbuild]
  dsimp only
  rw [hfex, hkeys, hsel]
  dsimp only
  rw [hex (k - 1) (by omega), if_pos rfl]
  dsimp only
  rw [hdlk]
  dsimp only
  rw [hne, if_neg (by simp)]
  dsimp only
  rw [hdlk]
  dsimp only
  rw [hfind, if_pos rfl]
  rw [hlen, hwalk]
  simp

/-- On the empty graph `longest_path` dies in the guard
`if n1 == dists[n1][0]` with a `KeyError` on `dists[None]`. -/
theorem empty_longestPath (pred : LPNode → List (LPNode × Nat)) :
    longestPath [] pred = .error () := rfl

/-- On a graph holding one isolated node, `longest_path` always dies with a
`KeyError`: an existing node survives the endpoint filters, equals its own
stored predecessor, is nulled by the `n1 == dists[n1][0]` guard, and the
next guard then evaluates `dists[None]`; a buffer/invisible or blocked node
empties the candidate table so the earlier guard evaluates `dists[None]`
directly. -/
theorem single_longestPath :
    ∀ (n : LPNode) (pred : LPNode → List (LPNode × Nat)),
      longestPath [n] pred = .error () := by
  intro n pred
  cases hb : n.block with
  | some b =>
    have hfil : [n].filter (fun x => x.block.isNone) = [] := by simp [hb]
    unfold longestPath
    rw [hfil]
    rfl
  | none =>
    have hfil : [n].filter (fun x => x.block.isNone) = [n] := by simp [hb]
    unfold longestPath
    rw [hfil]
    cases hpl : (pred n).filter (fun e => e.1.block.isNone) with
    | cons e es =>
      have hbd : buildDists pred [n] [] = .error () := by
        simp only [buildDists, hpl]
        rfl
      rw [hbd]
    | nil =>
      have hbd : buildDists pred [n] [] = .ok [(n, (n, 0))] := by
        simp only [buildDists, hpl]
        rfl
      rw [hbd]
      dsimp only
      cases hex : n.existsFlag with
      | false =>
        have hf : [(n, (n, 0))].filter
            (fun e => e.1.existsFlag || e.2.2 != 0) = [] := by
          simp [hex]
        rw [hf]
        rfl
      | true =>
        have hf : [(n, (n, 0))].filter
            (fun e => e.1.existsFlag || e.2.2 != 0) = [(n, (n, 0))] := by
          simp [hex]
        rw [hf]
        have hmap : List.map (fun e => e.1) [(n, (n, 0))] = [n] := rfl
        rw [hmap]
        have hpm : pymax
            (fun a b => lexGt4 (key2 [(n, (n, 0))] a) (key2 [(n, (n, 0))] b))
            [n] = some n := rfl
        rw [hpm]
        dsimp only
        have hdl : dlookup [(n, (n, 0))] n = some (n, 0) := by
          simp [dlookup, List.find?]
        rw [hex, if_pos rfl]
        dsimp only
        rw [hdl]
        dsimp only
        rw [show (n == n) = true by simp, if_pos rfl]

/-- C7 (amended): `longest_path` raises a `KeyError` — it does not return
none — on the empty graph and on a graph with a single isolated node
(whatever its module or block state); and on a single weighted linear chain
of length at least 2 with positive edge weights it returns exactly the
chain's nodes in reverse topological order (sink first), not topological
order. -/
theorem C7_longest_path_empty_single_chain :
    (∀ pred : LPNode → List (LPNode × Nat),
      longestPath [] pred = .error ())
    ∧ (∀ (n : LPNode) (pred : LPNode → List (LPNode × Nat)),
        longestPath [n] pred = .error ())
    ∧ (∀ (k : Nat) (c : Nat → LPNode) (w : Nat → Nat)
        (pred : LPNode → List (LPNode × Nat)),
        2 ≤ k →
        (∀ i j, i < k → j < k → i ≠ j → (c i).nid ≠ (c j).nid) →
        (∀ i, i < k → (c i).existsFlag = true) →
        (∀ i, i < k → (c i).block = none) →
        (∀ t, 1 ≤ w t) →
        pred (c 0) = [] →
        (∀ i, i + 1 < k → pred (c (i + 1)) = [(c i, w i)]) →
        longestPath ((List.range k).map c) pred
          = .ok (some (((List.range k).reverse).map c))) :=
  ⟨empty_longestPath, single_longestPath,
    fun k c w pred hk hinj hex hblock hw hp0 hps =>
      chain_longestPath k c w pred hk hinj hex hblock hw hp0 hps⟩

/-- C7 witness: the chain case applied to a concrete 2-node chain with unit
weight. -/
theorem C7_longest_path_empty_single_chain_witness :
    longestPath ((List.range 2).map (fun i => (⟨i, 0, true, none⟩ : LPNode)))
        (fun n => if n.nid == 1
          then [((⟨0, 0, true, none⟩ : LPNode), 1)] else [])
      = .ok (some (((List.range 2).reverse).map
          (fun i => (⟨i, 0, true, none⟩ : LPNode)))) :=
  C7_longest_path_empty_single_chain.2.2 2
    (fun i => ⟨i, 0, true, none⟩) (fun _ => 1)
    (fun n => if n.nid == 1 then [((⟨0, 0, true, none⟩ : LPNode), 1)] else [])
    (by omega)
    (fun i j _ _ hne => by simpa using hne)
    (fun i _ => rfl)
    (fun i _ => rfl)
    (fun t => le_refl 1)
    rfl
    (fun i hi => by
      have h0 : i = 0 := by omega
      subst h0
      rfl)

end Pptrees
